import Mathlib

/-!
Verification of the EventHub semantic event-search core.

This file gives a shallow embedding of the query-filter extraction algorithm
(`extract_filters_from_query`), the retrieval-filter construction and the
post-retrieval scoring/sorting stage of `perform_search`
(components/search/search.py), and the JSON-RPC style tool dispatcher
(mcp_server.py), together with theorems about them.

Strings are modelled as `List Char`; Python's `str.lower`, `str.title`,
`str.strip`, substring tests (`x in s`) and the concrete regular expressions
used by the source (`\bfree\b`, `\bpaid\b`, `in\s+([A-Za-z\s]+)`, literal
patterns with `re.IGNORECASE`, `\s+`) are modelled character by character.
Similarity scores are modelled as rationals; floating-point division by a
zero denominator (which in the source can only be `0.0/0.0`, i.e. IEEE NaN)
is modelled by an explicit `nan` constructor.
-/

namespace EventHub

/-! ### Characters

`isWordChar` models the regex word-character class `\w` = `[A-Za-z0-9_]`
(the inputs of interest are ASCII), used by the `\b` word boundary.
`isSpaceChar` models the regex whitespace class `\s` = `[ \t\n\r\v\f]`. -/

def isWordChar (c : Char) : Bool := c.isAlphanum || c == '_'

def isSpaceChar (c : Char) : Bool :=
  c == ' ' || c == '\t' || c == '\n' || c == '\r' || c == '\x0b' || c == '\x0c'

/-- Characters matched by the regex class `[A-Za-z\s]` of the location pattern. -/
def isLocChar (c : Char) : Bool := c.isAlpha || isSpaceChar c

/-- Python `s.lower()` on a string modelled as a character list. -/
def lower (s : List Char) : List Char := s.map Char.toLower

/-- Case-insensitive equality of two strings (equality after `lower`). -/
def lowerEq (a b : List Char) : Bool := lower a == lower b

/-- Case-insensitive "w is a prefix of s" (character-wise comparison after
`Char.toLower`), the elementary matching step of the `re.IGNORECASE` regexes. -/
def prefCI : List Char → List Char → Bool
  | [], _ => true
  | _ :: _, [] => false
  | a :: as, b :: bs => (a.toLower == b.toLower) && prefCI as bs

/-- Case-insensitive substring test: Python `w in s.lower()` for a lowercase
needle `w`, and also the matching relation of `re.IGNORECASE` literal patterns. -/
def containsCI (w : List Char) : List Char → Bool
  | [] => prefCI w []
  | c :: rest => prefCI w (c :: rest) || containsCI w rest

/-! ### Regex substitution and search primitives (search.py lines 262-296) -/

/-- Left side of a `\b` boundary for a pattern starting with a word character:
the previous character (if any) must not be a word character. -/
def leftB : Option Char → Bool
  | none => true
  | some c => !isWordChar c

/-- Right side of a `\b` boundary for a pattern ending with a word character:
the following character (if any) must not be a word character. -/
def rightB : List Char → Bool
  | [] => true
  | c :: _ => !isWordChar c

/-- Model of `re.sub(r"\b<w>\b", "", s, flags=re.IGNORECASE)` for a pattern `w`
whose first and last characters are word characters (here `free`, `paid`):
scan left to right; at each position, if `w` matches case-insensitively and
both boundaries hold, delete the matched span and continue after it (the
`prev` character for subsequent boundary checks is the last character of the
deleted span, as `\b` refers to the original text); otherwise keep the
character.  `prev` is the character preceding the current position. -/
def subWordB (w : List Char) (prev : Option Char) : List Char → List Char
  | [] => []
  | c :: rest =>
    if _h : 0 < w.length ∧ prefCI w (c :: rest) = true ∧ leftB prev = true
           ∧ rightB ((c :: rest).drop w.length) = true then
      subWordB w ((c :: rest).take w.length).getLast? ((c :: rest).drop w.length)
    else
      c :: subWordB w (some c) rest
termination_by s => s.length
decreasing_by
  · simp only [List.length_drop, List.length_cons]
    omega
  · simp only [List.length_cons]
    omega

/-- Model of `re.sub(p, "", s, flags=re.IGNORECASE)` for a literal pattern `p`
with no metacharacters (the date keywords, the category names, and the text
captured by the location match): delete every case-insensitive occurrence,
scanning left to right, non-overlapping. -/
def subAll (w : List Char) : List Char → List Char
  | [] => []
  | c :: rest =>
    if _h : 0 < w.length ∧ prefCI w (c :: rest) = true then
      subAll w ((c :: rest).drop w.length)
    else
      c :: subAll w rest
termination_by s => s.length
decreasing_by
  · simp only [List.length_drop, List.length_cons]
    omega
  · simp only [List.length_cons]
    omega

/-- Model of `re.sub(r'\s+', ' ', s)`: each maximal whitespace run becomes one space. -/
def collapseWs : List Char → List Char
  | [] => []
  | c :: rest =>
    if isSpaceChar c then ' ' :: collapseWs (rest.dropWhile isSpaceChar)
    else c :: collapseWs rest
termination_by s => s.length
decreasing_by
  · have := (@List.dropWhile_sublist Char rest isSpaceChar).length_le
    simp only [List.length_cons]
    omega
  · simp only [List.length_cons]
    omega

/-- Python `s.strip()`: remove leading and trailing whitespace. -/
def pyStrip (s : List Char) : List Char :=
  ((s.dropWhile isSpaceChar).reverse.dropWhile isSpaceChar).reverse

/-- Auxiliary for `pyTitle`: `prevAlpha` records whether the previous character
was a (cased) letter. -/
def pyTitleAux (prevAlpha : Bool) : List Char → List Char
  | [] => []
  | c :: rest => (if prevAlpha then c.toLower else c.toUpper) :: pyTitleAux c.isAlpha rest

/-- Python `s.title()` (ASCII): uppercase a letter that follows a non-letter,
lowercase a letter that follows a letter. -/
def pyTitle (s : List Char) : List Char := pyTitleAux false s

/-- Attempt of `re.search(r"in\s+([A-Za-z\s]+)", q, re.IGNORECASE)` at the head
of the text: `i`/`n` case-insensitively, then greedy `\s+`, then greedy
`[A-Za-z\s]+` (with the regex engine's backtracking: if no `[A-Za-z\s]`
character follows the whitespace run, the last whitespace character is given
up by `\s+` and becomes the capture, provided the run has length at least 2).
Returns `(group0, group1)` on success. -/
def tryLocAt : List Char → Option (List Char × List Char)
  | c1 :: c2 :: rest =>
    if c1.toLower == 'i' && c2.toLower == 'n' then
      let ws := rest.takeWhile isSpaceChar
      let afterWs := rest.drop ws.length
      let grp := afterWs.takeWhile isLocChar
      if ws.isEmpty then none
      else if !grp.isEmpty then some (c1 :: c2 :: (ws ++ grp), grp)
      else if 2 ≤ ws.length then some (c1 :: c2 :: ws, [ws.getLastD ' '])
      else none
    else none
  | _ => none

/-- Model of `re.search(r"in\s+([A-Za-z\s]+)", q, re.IGNORECASE)`: leftmost
position at which the pattern matches, returning `(group0, group1)`. -/
def searchLoc : List Char → Option (List Char × List Char)
  | [] => none
  | c :: rest =>
    match tryLocAt (c :: rest) with
    | some r => some r
    | none => searchLoc rest

/-! ### Word tokens

`tokens s` lists the maximal word-character runs of `s`, in order.  This is a
specification-side notion: an occurrence of an all-word-character word `w` as
a "standalone word" of `s` (in the sense of the regex `\bw\b`) is exactly a
token of `s` that is case-insensitively equal to `w` (`hasWord`). -/

def tokens : List Char → List (List Char)
  | [] => []
  | c :: rest =>
    if isWordChar c then (c :: rest.takeWhile isWordChar) :: tokens (rest.dropWhile isWordChar)
    else tokens rest
termination_by s => s.length
decreasing_by
  · have := (@List.dropWhile_sublist Char rest isWordChar).length_le
    simp only [List.length_cons]
    omega
  · simp only [List.length_cons]
    omega

/-- A word `w` occurs as a standalone word of `s` (case-insensitively):
some maximal word-character run of `s` equals `w` up to case. -/
def hasWord (w s : List Char) : Bool := (tokens s).any (fun t => lowerEq t w)

/-! ### Python dict model

Filter sets are Python dicts keyed by strings.  `dictSet` is assignment
(`d[k] = v`): an existing key keeps its position and has its value replaced,
a new key is appended.  `dictGet` is lookup, `none` for a missing key. -/

def dictSet {β : Type} (k : String) (v : β) : List (String × β) → List (String × β)
  | [] => [(k, v)]
  | (k', v') :: rest => if k' = k then (k, v) :: rest else (k', v') :: dictSet k v rest

def dictGet {β : Type} (k : String) : List (String × β) → Option β
  | [] => none
  | (k', v') :: rest => if k' = k then some v' else dictGet k rest

/-- Values stored in the extracted filter dict: Booleans (`isFree`) or strings
(`location`, `date`, `category`). -/
inductive FVal where
  | b (x : Bool)
  | s (x : List Char)
deriving DecidableEq, Repr

/-- The filter dict built by `extract_filters_from_query`. -/
abbrev Filters := List (String × FVal)

/-! ### extract_filters_from_query (search.py lines 258-297)

The date values depend on `datetime.now()`; they are external inputs, passed
in as a `DateEnv` of already-formatted `YYYY-MM-DD` strings. -/

structure DateEnv where
  today : List Char
  tomorrow : List Char
  thisWeekend : List Char
  nextWeek : List Char

def freeW : List Char := "free".data
def paidW : List Char := "paid".data

/-- Fixed `date_patterns` iteration order (dict insertion order). -/
def datePatterns (env : DateEnv) : List (List Char × List Char) :=
  [("today".data, env.today), ("tomorrow".data, env.tomorrow),
   ("this weekend".data, env.thisWeekend), ("next week".data, env.nextWeek)]

/-- Fixed `categories` vocabulary, in source order. -/
def categories : List (List Char) :=
  ["technology".data, "music".data, "business".data, "sports".data,
   "education".data, "food & drink".data, "gaming".data, "health & wellness".data]

/-- Lines 262-264: `if "free" in query.lower(): filters["isFree"] = True;
query = re.sub(r"\bfree\b", "", query, flags=re.IGNORECASE)`. -/
def stage_free (x : List Char × Filters) : List Char × Filters :=
  if containsCI freeW x.1 then (subWordB freeW none x.1, dictSet "isFree" (FVal.b true) x.2)
  else x

/-- Lines 265-267: the `paid` check, run on the query as left by `stage_free`. -/
def stage_paid (x : List Char × Filters) : List Char × Filters :=
  if containsCI paidW x.1 then (subWordB paidW none x.1, dictSet "isFree" (FVal.b false) x.2)
  else x

/-- Lines 270-273: location detection; on a match, `filters["location"] =
m.group(1).strip().title()` and all case-insensitive occurrences of
`m.group(0)` are removed from the query. -/
def stage_loc (x : List Char × Filters) : List Char × Filters :=
  match searchLoc x.1 with
  | some g => (subAll g.1 x.1, dictSet "location" (FVal.s (pyTitle (pyStrip g.2))) x.2)
  | none => x

/-- Body of the date-pattern loop (lines 283-286). -/
def dateStep (acc : List Char × Filters) (pv : List Char × List Char) : List Char × Filters :=
  if containsCI pv.1 acc.1 then (subAll pv.1 acc.1, dictSet "date" (FVal.s pv.2) acc.2)
  else acc

/-- Lines 276-286: the relative-date keyword loop. -/
def stage_dates (env : DateEnv) (x : List Char × Filters) : List Char × Filters :=
  (datePatterns env).foldl dateStep x

/-- Body of the category loop (lines 291-294): on a substring match, set
`filters["category"] = category.title()` and strip the matched vocabulary
entry from the query. -/
def catStep (acc : List Char × Filters) (cname : List Char) : List Char × Filters :=
  if containsCI cname acc.1 then (subAll cname acc.1, dictSet "category" (FVal.s (pyTitle cname)) acc.2)
  else acc

/-- Lines 289-294: the category vocabulary loop. -/
def stage_cats (x : List Char × Filters) : List Char × Filters :=
  categories.foldl catStep x

/-- Model of `extract_filters_from_query` (lines 258-297): the five stages in
source order, then `query = re.sub(r'\s+', ' ', query).strip()`.  Returns
`(cleaned query, filters)`. -/
def extract_filters_from_query (env : DateEnv) (query : List Char) : List Char × Filters :=
  let x := stage_cats (stage_dates env (stage_loc (stage_paid (stage_free (query, [])))))
  (pyStrip (collapseWs x.1), x.2)

/-- Entries of the category vocabulary that match during the category loop, in
iteration order, each match stripping the entry from the working query (mirrors
the loop of lines 291-294); used to state which entry determines the final
`category` value. -/
def catFired : List (List Char) → List Char → List (List Char)
  | [], _ => []
  | cname :: cs, q =>
    if containsCI cname q then cname :: catFired cs (subAll cname q)
    else catFired cs q

/-! ### The retrieval filter of perform_search (search.py lines 308-326) -/

/-- Atomic pieces of the ChromaDB `where` filter: the `$or` list of `user_id`
equality predicates, or a single metadata equality predicate. -/
inductive WherePred where
  | userOr (ids : List (List Char))
  | eqF (key : String) (v : FVal)
deriving DecidableEq

/-- Shape of the `where` filter passed to `collection.query`: either the bare
`$or` user filter (no other filters), or a `$and` of the user filter and the
other predicates. -/
inductive WhereFilter where
  | single (p : WherePred)
  | conj (ps : List WherePred)
deriving DecidableEq

/-- Lines 308-326 of `perform_search`: `user_or_filter` is
`[{"user_id": "global"}, {"user_id": user_id}]`; `other_filters` collects, in
this order, `isFree`, `location` and `category` equality predicates for the
keys present in the extracted filters; everything is combined under `$and`,
or the bare `$or` is used when there are no other filters. -/
def build_where_filter (user_id : List Char) (filters : Filters) : WhereFilter :=
  let userOr := WherePred.userOr ["global".data, user_id]
  let others :=
    (match dictGet "isFree" filters with
     | some v => [WherePred.eqF "isFree" v]
     | none => []) ++
    (match dictGet "location" filters with
     | some v => [WherePred.eqF "location" v]
     | none => []) ++
    (match dictGet "category" filters with
     | some v => [WherePred.eqF "category" v]
     | none => [])
  if others.isEmpty then WhereFilter.single userOr else WhereFilter.conj (userOr :: others)

/-- Metadata keys constrained by one atomic predicate. -/
def predKeys : WherePred → List String
  | .userOr _ => ["user_id"]
  | .eqF k _ => [k]

/-- All metadata keys constrained by a `where` filter. -/
def whereKeys : WhereFilter → List String
  | .single p => predKeys p
  | .conj ps => (ps.map predKeys).flatten

/-! ### Scoring and ranking (search.py lines 338-354)

After retrieval, `perform_search` pairs each candidate's metadata with a
cosine score and sorts by score descending with Python's stable `list.sort`
(`reverse=True` does not reorder equal keys).  The metadata type is abstract
(`α`); scores are modelled as rationals. -/

/-- Comparison used to model the stable descending sort
`scored_results.sort(key=lambda x: x["cosine_score"], reverse=True)`. -/
def scoreLe {α : Type} (x y : α × ℚ) : Bool := decide (y.2 ≤ x.2)

/-- Lines 341-354 of `perform_search` after the candidates have been scored:
`if not metadatas: return []`, then sort the scored candidates by score
descending (stable) and return only the metadata, in that order. -/
def rank_results {α : Type} (scored : List (α × ℚ)) : List α :=
  if scored.isEmpty then [] else (scored.mergeSort scoreLe).map Prod.fst

/-! ### cosine_similarity (search.py lines 344-346)

`np.dot(a, b) / (np.linalg.norm(a) * np.linalg.norm(b))` with no guard on the
denominator.  Over the rationals we carry the dot product and the squared
denominator (`normSq a * normSq b`; the real score is `num / Real.sqrt densq`).
A zero denominator forces a zero numerator (`dotQ_eq_zero_left/right` below),
so the IEEE result there is `0.0/0.0 = NaN`, modelled by the `nan`
constructor; no exception is raised — the function is total. -/

def dotQ : List ℚ → List ℚ → ℚ
  | [], _ => 0
  | _ :: _, [] => 0
  | a :: as, b :: bs => a * b + dotQ as bs

/-- Squared Euclidean norm, `np.linalg.norm(a) ** 2`. -/
def normSq (a : List ℚ) : ℚ := dotQ a a

/-- Result of the floating-point cosine computation: a genuine value
(numerator and squared denominator of `dot/(‖a‖‖b‖)`), or NaN. -/
inductive CosResult where
  | nan
  | val (num densq : ℚ)
deriving DecidableEq

def cosine_similarity (a b : List ℚ) : CosResult :=
  if normSq a * normSq b = 0 then CosResult.nan
  else CosResult.val (dotQ a b) (normSq a * normSq b)

/-! ### The tool dispatcher (mcp_server.py)

`SimpleMCPServer.handle_request` is modelled as a pure function on a request
record; the payloads produced by the two tool handlers (which catch their own
exceptions and always return a content payload) are abstracted into
`RpcResult` constructors.  The serving loop `SimpleMCPServer.run` is modelled
on a finite list of input lines: a line is either malformed JSON (skipped,
`continue`) or a parsed request (answered). -/

/-- Incoming JSON-RPC request: `request.get("method")`, `params.get("name")`,
`params.get("arguments", {})`, `request.get("id")`. -/
structure Request where
  method : Option String
  paramName : Option String
  args : List (String × String)
  id : Option String
deriving DecidableEq

/-- Result payloads of the supported methods (abstracted). -/
inductive RpcResult where
  | toolsList
  | searchContent (query user_id : String)
  | allEventsContent
deriving DecidableEq

/-- Outgoing response: `{"jsonrpc": "2.0", "id": ..., "result": ...}` or
`{"jsonrpc": "2.0", "id": ..., "error": {"code": ..., "message": ...}}`. -/
inductive Response where
  | ok (id : Option String) (result : RpcResult)
  | err (id : Option String) (code : Int) (message : String)
deriving DecidableEq

/-- Python `str(x)` for the `Option String` fields interpolated into the
`Unknown tool/method` messages (`str(None) = "None"`). -/
def pyShowOpt : Option String → String
  | none => "None"
  | some s => s

/-- The `search_events` handler (mcp_server.py lines 74-115): reads
`args.get("query", "")` and `args.get("user_id", "default")`; never raises
(its body is wrapped in try/except returning a content payload either way). -/
def search_events_tool (args : List (String × String)) : RpcResult :=
  RpcResult.searchContent ((dictGet "query" args).getD "") ((dictGet "user_id" args).getD "default")

/-- The `get_all_events` handler (lines 117-137): never raises. -/
def get_all_events_tool (_args : List (String × String)) : RpcResult :=
  RpcResult.allEventsContent

/-- Model of `SimpleMCPServer.handle_request` (lines 37-72): route on
`method`, then on the tool name for `tools/call`; an unknown tool or method
raises `ValueError(...)`, which the enclosing `except` turns into an error
response with code `-1`, the exception message, and the request's `id`. -/
def handle_request (r : Request) : Response :=
  if r.method = some "tools/list" then
    Response.ok r.id RpcResult.toolsList
  else if r.method = some "tools/call" then
    if r.paramName = some "search_events" then
      Response.ok r.id (search_events_tool r.args)
    else if r.paramName = some "get_all_events" then
      Response.ok r.id (get_all_events_tool r.args)
    else
      Response.err r.id (-1) ("Unknown tool: " ++ pyShowOpt r.paramName)
  else
    Response.err r.id (-1) ("Unknown method: " ++ pyShowOpt r.method)

/-- One line of the stdio channel: malformed JSON or a parsed request. -/
inductive Line where
  | malformed
  | req (r : Request)

/-- Model of the serving loop `SimpleMCPServer.run` (lines 139-162): each
malformed line is skipped (`except json.JSONDecodeError: continue`), each
request line is answered by `handle_request` (which never throws), and the
loop only ends when the input is exhausted. -/
def runServer : List Line → List Response
  | [] => []
  | Line.malformed :: rest => runServer rest
  | Line.req r :: rest => handle_request r :: runServer rest

/-- Sample date environment (concrete `datetime.now()`-derived strings) used
to evaluate the extraction on concrete queries; none of the concrete queries
below contains a date keyword, so its values are irrelevant there. -/
def envDemo : DateEnv :=
  ⟨"2023-09-01".data, "2023-09-02".data, "2023-09-02".data, "2023-09-08".data⟩

/-! ## Supporting lemmas -/

unseal subWordB subAll collapseWs tokens

/-! ### Dot products and cosine (for C5) -/

theorem dotQ_self_nonneg (a : List ℚ) : 0 ≤ dotQ a a := by
  induction a with
  | nil => simp [dotQ]
  | cons x xs ih =>
    simp only [dotQ]
    have := mul_self_nonneg x
    linarith

theorem dotQ_eq_zero_left (a : List ℚ) (h : dotQ a a = 0) (b : List ℚ) : dotQ a b = 0 := by
  induction a generalizing b with
  | nil => simp [dotQ]
  | cons x xs ih =>
    cases b with
    | nil => simp [dotQ]
    | cons y ys =>
      simp only [dotQ] at h ⊢
      have h1 : 0 ≤ dotQ xs xs := dotQ_self_nonneg xs
      have h2 : 0 ≤ x * x := mul_self_nonneg x
      have hx : x = 0 := by nlinarith
      have h3 : dotQ xs xs = 0 := by nlinarith
      rw [hx, ih h3]
      ring

theorem dotQ_comm (a b : List ℚ) : dotQ a b = dotQ b a := by
  induction a generalizing b with
  | nil => cases b <;> simp [dotQ]
  | cons x xs ih =>
    cases b with
    | nil => simp [dotQ]
    | cons y ys => simp only [dotQ, ih]; ring

theorem dotQ_eq_zero_right (a b : List ℚ) (h : dotQ b b = 0) : dotQ a b = 0 := by
  rw [dotQ_comm]
  exact dotQ_eq_zero_left b h a

/-- When the cosine denominator is zero, the numerator is forced to zero as
well: the unguarded float division in the source is exactly `0.0/0.0`, i.e.
IEEE NaN, which justifies the `nan` branch of `cosine_similarity`. -/
theorem cosine_denominator_zero_numerator_zero (a b : List ℚ)
    (h : normSq a * normSq b = 0) : dotQ a b = 0 := by
  rcases mul_eq_zero.mp h with h | h
  · exact dotQ_eq_zero_left a h b
  · exact dotQ_eq_zero_right a b h

/-! ### Python dict lemmas -/

theorem dictGet_dictSet_same {β : Type} (k : String) (v : β) (f : List (String × β)) :
    dictGet k (dictSet k v f) = some v := by
  induction f with
  | nil => simp [dictSet, dictGet]
  | cons kv rest ih =>
    by_cases h : kv.1 = k
    · simp [dictSet, dictGet, h]
    · simp only [dictSet, dictGet, h, if_false, ite_false]
      exact ih

theorem dictGet_dictSet_ne {β : Type} (k k' : String) (h : k' ≠ k) (v : β)
    (f : List (String × β)) : dictGet k (dictSet k' v f) = dictGet k f := by
  induction f with
  | nil => simp [dictSet, dictGet, h]
  | cons kv rest ih =>
    by_cases hk : kv.1 = k'
    · simp only [dictSet, hk, if_pos rfl]
      simp [dictGet, h, hk]
    · simp only [dictSet, if_neg hk]
      by_cases hk2 : kv.1 = k
      · simp [dictGet, hk2]
      · simp only [dictGet, if_neg hk2]
        exact ih

theorem mem_keys_dictSet {β : Type} (x k : String) (v : β) (f : List (String × β)) :
    x ∈ (dictSet k v f).map Prod.fst ↔ x = k ∨ x ∈ f.map Prod.fst := by
  induction f with
  | nil => simp [dictSet]
  | cons kv rest ih =>
    by_cases h : kv.1 = k
    · simp [dictSet, h]
    · simp only [dictSet, if_neg h, List.map_cons, List.mem_cons, ih]
      tauto

theorem keysNodup_dictSet {β : Type} (k : String) (v : β) (f : List (String × β))
    (h : (f.map Prod.fst).Nodup) : ((dictSet k v f).map Prod.fst).Nodup := by
  induction f with
  | nil => simp [dictSet]
  | cons kv rest ih =>
    by_cases hk : kv.1 = k
    · simpa [dictSet, hk] using h
    · simp only [List.map_cons, List.nodup_cons] at h
      simp only [dictSet, if_neg hk, List.map_cons, List.nodup_cons]
      refine ⟨?_, ih h.2⟩
      rw [mem_keys_dictSet]
      rintro (hx | hx)
      · exact hk hx
      · exact h.1 hx

/-! ### Preservation of filter keys across extraction stages -/

theorem dictGet_stage_free_ne (k : String) (h : k ≠ "isFree") (x : List Char × Filters) :
    dictGet k (stage_free x).2 = dictGet k x.2 := by
  unfold stage_free
  split
  · exact dictGet_dictSet_ne k "isFree" (Ne.symm h) _ x.2
  · rfl

theorem dictGet_stage_paid_ne (k : String) (h : k ≠ "isFree") (x : List Char × Filters) :
    dictGet k (stage_paid x).2 = dictGet k x.2 := by
  unfold stage_paid
  split
  · exact dictGet_dictSet_ne k "isFree" (Ne.symm h) _ x.2
  · rfl

theorem dictGet_stage_loc_ne (k : String) (h : k ≠ "location") (x : List Char × Filters) :
    dictGet k (stage_loc x).2 = dictGet k x.2 := by
  unfold stage_loc
  cases searchLoc x.1 with
  | none => rfl
  | some g => exact dictGet_dictSet_ne k "location" (Ne.symm h) _ x.2

theorem dictGet_dateStep_ne (k : String) (h : k ≠ "date") (x : List Char × Filters)
    (pv : List Char × List Char) : dictGet k (dateStep x pv).2 = dictGet k x.2 := by
  unfold dateStep
  split
  · exact dictGet_dictSet_ne k "date" (Ne.symm h) _ x.2
  · rfl

theorem dictGet_dates_foldl_ne (k : String) (h : k ≠ "date")
    (ps : List (List Char × List Char)) (x : List Char × Filters) :
    dictGet k (ps.foldl dateStep x).2 = dictGet k x.2 := by
  induction ps generalizing x with
  | nil => rfl
  | cons pv ps ih => rw [List.foldl_cons, ih, dictGet_dateStep_ne k h]

theorem dictGet_stage_dates_ne (env : DateEnv) (k : String) (h : k ≠ "date")
    (x : List Char × Filters) : dictGet k (stage_dates env x).2 = dictGet k x.2 :=
  dictGet_dates_foldl_ne k h (datePatterns env) x

theorem dictGet_catStep_ne (k : String) (h : k ≠ "category") (x : List Char × Filters)
    (cname : List Char) : dictGet k (catStep x cname).2 = dictGet k x.2 := by
  unfold catStep
  split
  · exact dictGet_dictSet_ne k "category" (Ne.symm h) _ x.2
  · rfl

theorem dictGet_cats_foldl_ne (k : String) (h : k ≠ "category")
    (cs : List (List Char)) (x : List Char × Filters) :
    dictGet k (cs.foldl catStep x).2 = dictGet k x.2 := by
  induction cs generalizing x with
  | nil => rfl
  | cons c cs ih => rw [List.foldl_cons, ih, dictGet_catStep_ne k h]

theorem dictGet_stage_cats_ne (k : String) (h : k ≠ "category") (x : List Char × Filters) :
    dictGet k (stage_cats x).2 = dictGet k x.2 :=
  dictGet_cats_foldl_ne k h categories x

/-- The `isFree` entry of the final filter set is decided entirely by the
free/paid stages; the location, date and category stages never touch it. -/
theorem dictGet_isFree_extract (env : DateEnv) (q : List Char) :
    dictGet "isFree" (extract_filters_from_query env q).2
      = dictGet "isFree" (stage_paid (stage_free (q, []))).2 := by
  unfold extract_filters_from_query
  dsimp only
  rw [dictGet_stage_cats_ne _ (by decide), dictGet_stage_dates_ne _ _ (by decide),
    dictGet_stage_loc_ne _ (by decide)]

/-- When no date keyword occurs in the working query, the date stage is the
identity. -/
theorem stage_dates_nomatch (env : DateEnv) (x : List Char × Filters)
    (h1 : containsCI "today".data x.1 = false)
    (h2 : containsCI "tomorrow".data x.1 = false)
    (h3 : containsCI "this weekend".data x.1 = false)
    (h4 : containsCI "next week".data x.1 = false) :
    stage_dates env x = x := by
  simp [stage_dates, datePatterns, dateStep, h1, h2, h3, h4]

/-! ## Claim C5 -/

/-- C5, counterexample: for the zero-norm query vector `[0]` against the
candidate `[1]`, the unguarded division `dot/(‖a‖·‖b‖)` is `0.0/0.0`, i.e.
NaN — the pair is not assigned any (let alone a maximally dissimilar)
similarity value, contradicting the claim that it is treated as maximally
dissimilar. -/
theorem C5_counterexample :
    cosine_similarity [(0 : ℚ)] [(1 : ℚ)] = CosResult.nan ∧
    CosResult.nan ≠ CosResult.val (-1) 1 := by
  constructor
  · norm_num [cosine_similarity, normSq, dotQ]
  · intro h
    exact CosResult.noConfusion h

/-- C5, amended: when the query vector or the candidate vector has zero norm,
`cosine_similarity` performs the division with no special-casing; the result
is the undefined float value NaN (numpy emits a warning, not an exception, so
the computation completes and no error is raised), rather than a
maximal-dissimilarity score. -/
theorem C5_amended (a b : List ℚ) (h : normSq a = 0 ∨ normSq b = 0) :
    cosine_similarity a b = CosResult.nan := by
  unfold cosine_similarity
  rcases h with h | h <;> rw [if_pos (by rw [h]; ring)]

/-- Witness for `C5_amended` at the concrete zero vector `[0, 0]`. -/
theorem C5_amended_witness :
    (normSq [(0 : ℚ), 0] = 0 ∨ normSq [(1 : ℚ), 2] = 0) ∧
    cosine_similarity [(0 : ℚ), 0] [(1 : ℚ), 2] = CosResult.nan :=
  ⟨Or.inl (by norm_num [normSq, dotQ]), C5_amended _ _ (Or.inl (by norm_num [normSq, dotQ]))⟩

/-! ## Claim C6 -/

/-- C6, confirmed: a request with an unknown method, or a `tools/call` with an
unknown tool name, is answered with an error response carrying the failure
code `-1` and a non-empty human-readable message, whose `id` equals the
request's `id`; the dispatch loop survives it — it still answers every
subsequent line, and a following well-formed request (here `tools/list`) gets
its normal successful response. -/
theorem C6_dispatcher_error_handling (r : Request)
    (h : (r.method ≠ some "tools/list" ∧ r.method ≠ some "tools/call") ∨
         (r.method = some "tools/call" ∧ r.paramName ≠ some "search_events" ∧
          r.paramName ≠ some "get_all_events")) :
    (∃ msg, handle_request r = Response.err r.id (-1) msg ∧ msg ≠ "") ∧
    (∀ rest, runServer (Line.req r :: rest) = handle_request r :: runServer rest) ∧
    (∀ g, g.method = some "tools/list" →
      ∀ rest, runServer (Line.req r :: Line.req g :: rest)
        = handle_request r :: Response.ok g.id RpcResult.toolsList :: runServer rest) := by
  refine ⟨?_, fun rest => rfl, fun g hg rest => ?_⟩
  · rcases h with ⟨h1, h2⟩ | ⟨h1, h2, h3⟩
    · refine ⟨"Unknown method: " ++ pyShowOpt r.method, ?_, ?_⟩
      · simp [handle_request, h1, h2]
      · simp [String.ext_iff]
    · refine ⟨"Unknown tool: " ++ pyShowOpt r.paramName, ?_, ?_⟩
      · simp [handle_request, h1, h2, h3]
      · simp [String.ext_iff]
  · show handle_request r :: handle_request g :: runServer rest = _
    rw [show handle_request g = Response.ok g.id RpcResult.toolsList from by
      simp [handle_request, hg]]

/-- Witness for `C6_dispatcher_error_handling` at a concrete unknown-tool
request. -/
theorem C6_witness :
    ((((⟨some "tools/call", some "bogus", [], some "42"⟩ : Request)).method
        ≠ some "tools/list" ∧
      ((⟨some "tools/call", some "bogus", [], some "42"⟩ : Request)).method
        ≠ some "tools/call") ∨
     (((⟨some "tools/call", some "bogus", [], some "42"⟩ : Request)).method
        = some "tools/call" ∧
      ((⟨some "tools/call", some "bogus", [], some "42"⟩ : Request)).paramName
        ≠ some "search_events" ∧
      ((⟨some "tools/call", some "bogus", [], some "42"⟩ : Request)).paramName
        ≠ some "get_all_events")) ∧
    ((∃ msg, handle_request ⟨some "tools/call", some "bogus", [], some "42"⟩
        = Response.err (some "42") (-1) msg ∧ msg ≠ "") ∧
     (∀ rest, runServer (Line.req ⟨some "tools/call", some "bogus", [], some "42"⟩ :: rest)
        = handle_request ⟨some "tools/call", some "bogus", [], some "42"⟩ :: runServer rest) ∧
     (∀ g, g.method = some "tools/list" →
        ∀ rest, runServer (Line.req ⟨some "tools/call", some "bogus", [], some "42"⟩
            :: Line.req g :: rest)
          = handle_request ⟨some "tools/call", some "bogus", [], some "42"⟩
            :: Response.ok g.id RpcResult.toolsList :: runServer rest)) :=
  ⟨Or.inr ⟨rfl, by decide, by decide⟩,
   C6_dispatcher_error_handling ⟨some "tools/call", some "bogus", [], some "42"⟩
     (Or.inr ⟨rfl, by decide, by decide⟩)⟩

/-! ## Claim C9 -/

/-- C9, confirmed: the `where` filter handed to `collection.query` constrains
only the keys `user_id`, `isFree`, `location`, `category`; in particular a
`date` filter extracted from relative-date keywords is never part of it (the
date keywords influence retrieval only through the cleaned query text that
gets embedded). -/
theorem C9_where_filter_keys (env : DateEnv) (q user_id : List Char) :
    (∀ k ∈ whereKeys (build_where_filter user_id (extract_filters_from_query env q).2),
        k ∈ (["user_id", "isFree", "location", "category"] : List String)) ∧
    "date" ∉ whereKeys (build_where_filter user_id (extract_filters_from_query env q).2) := by
  generalize (extract_filters_from_query env q).2 = f
  have main : ∀ k ∈ whereKeys (build_where_filter user_id f),
      k ∈ (["user_id", "isFree", "location", "category"] : List String) := by
    intro k hk
    unfold build_where_filter at hk
    rcases h1 : dictGet "isFree" f with _ | v1 <;>
      rcases h2 : dictGet "location" f with _ | v2 <;>
        rcases h3 : dictGet "category" f with _ | v3 <;>
          simp only [h1, h2, h3] at hk <;>
            simp only [whereKeys, predKeys, List.isEmpty_nil, List.isEmpty_cons,
              List.nil_append, List.append_nil, List.cons_append, if_true, if_false,
              Bool.false_eq_true, ite_false, ite_true, List.map_cons, List.map_nil,
              List.flatten, List.mem_cons, List.mem_singleton,
              List.not_mem_nil, or_false, List.append_nil] at hk <;>
              simp only [List.mem_cons, List.not_mem_nil, or_false] <;> tauto
  refine ⟨main, fun hd => ?_⟩
  have := main "date" hd
  simp at this

/-- Witness for `C9_where_filter_keys`: the `date` key is absent from the
filter built for a query that does contain a date keyword. -/
theorem C9_witness :
    "date" ∉ whereKeys (build_where_filter "u1".data
      (extract_filters_from_query envDemo "free music tomorrow".data).2) :=
  (C9_where_filter_keys envDemo "free music tomorrow".data "u1".data).2

/-! ### Sorting facts shared by C1 and C7 -/

theorem scoreLe_trans {α : Type} (a b c : α × ℚ) (hab : scoreLe a b = true)
    (hbc : scoreLe b c = true) : scoreLe a c = true := by
  simp only [scoreLe, decide_eq_true_eq] at hab hbc ⊢
  exact le_trans hbc hab

theorem scoreLe_total {α : Type} (a b : α × ℚ) : (scoreLe a b || scoreLe b a) = true := by
  simp only [scoreLe, Bool.or_eq_true, decide_eq_true_eq]
  exact le_total b.2 a.2

/-- Stability of the modelled sort: for every score value, the candidates
carrying exactly that score appear in the sorted list in the same order as in
the input list. -/
theorem mergeSort_stable_filter {α : Type} (scored : List (α × ℚ)) (s : ℚ) :
    (scored.mergeSort scoreLe).filter (fun x => x.2 == s)
      = scored.filter (fun x => x.2 == s) := by
  have hsub : List.Sublist (scored.filter (fun x => x.2 == s)) (scored.mergeSort scoreLe) := by
    apply List.sublist_mergeSort scoreLe_trans scoreLe_total
    · apply List.pairwise_of_forall_mem_list
      intro a ha b hb
      have ha2 : a.2 = s := by simpa using (List.mem_filter.mp ha).2
      have hb2 : b.2 = s := by simpa using (List.mem_filter.mp hb).2
      simp [scoreLe, ha2, hb2]
    · exact List.filter_sublist scored
  have hsub2 : List.Sublist (scored.filter (fun x => x.2 == s))
      ((scored.mergeSort scoreLe).filter (fun x => x.2 == s)) := by
    have h1 := hsub.filter (fun x => x.2 == s)
    have h2 : (scored.filter (fun x => x.2 == s)).filter (fun x => x.2 == s)
        = scored.filter (fun x => x.2 == s) := by
      apply List.filter_eq_self.mpr
      intro a ha
      exact (List.mem_filter.mp ha).2
    rwa [h2] at h1
  have hlen : ((scored.mergeSort scoreLe).filter (fun x => x.2 == s)).length
      = (scored.filter (fun x => x.2 == s)).length :=
    ((List.mergeSort_perm scored scoreLe).filter _).length_eq
  exact (hsub2.eq_of_length hlen.symm).symm

/-! ## Claim C1 -/

/-- C1, counterexample: a candidate whose cosine score `1/10` lies strictly
below the claimed threshold `0.2 = 2/10` is still present in the list returned
by the post-retrieval stage of `perform_search` — no score filtering happens. -/
theorem C1_counterexample :
    (1 : Nat) ∈ rank_results [((0 : Nat), (9 : ℚ)/10), ((1 : Nat), (1 : ℚ)/10)] ∧
    (1 : ℚ)/10 < 2/10 := by
  constructor
  · unfold rank_results
    rw [if_neg (by simp)]
    refine List.mem_map.mpr ⟨((1 : Nat), (1 : ℚ)/10), ?_, rfl⟩
    exact ((List.mergeSort_perm _ scoreLe).mem_iff).mpr (by simp)
  · norm_num

/-- C1, amended: `perform_search` applies no similarity threshold at all —
the returned list is a permutation of the metadata of all retrieved
candidates, whatever their scores; nothing is discarded. -/
theorem C1_amended {α : Type} (scored : List (α × ℚ)) :
    (rank_results scored).Perm (scored.map Prod.fst) := by
  unfold rank_results
  split
  case isTrue h =>
    rw [List.isEmpty_iff.mp h]
    simp [List.mergeSort_nil]
  case isFalse h =>
    exact (List.mergeSort_perm scored scoreLe).map Prod.fst

/-! ## Claim C7 -/

/-- C7, confirmed: the post-retrieval stage of `perform_search` returns
exactly the candidates' metadata (type `α`; no vectors, no document text),
ordered by score descending; the ordering is the stable one (candidates with
equal scores keep the order in which the vector store returned them); and an
empty candidate list yields the empty list as a normal result. -/
theorem C7_ranked_metadata {α : Type} (scored : List (α × ℚ)) :
    rank_results scored = (scored.mergeSort scoreLe).map Prod.fst ∧
    (scored.mergeSort scoreLe).Pairwise (fun x y => y.2 ≤ x.2) ∧
    (scored.mergeSort scoreLe).Perm scored ∧
    (∀ s : ℚ, (scored.mergeSort scoreLe).filter (fun x => x.2 == s)
        = scored.filter (fun x => x.2 == s)) ∧
    (scored = [] → rank_results scored = []) := by
  refine ⟨?_, ?_, List.mergeSort_perm scored scoreLe, mergeSort_stable_filter scored, ?_⟩
  · unfold rank_results
    split
    case isTrue h =>
      rw [List.isEmpty_iff.mp h]
      simp [List.mergeSort_nil]
    case isFalse h => rfl
  · have hs := List.sorted_mergeSort scoreLe_trans scoreLe_total scored
    exact hs.imp (fun h => by simpa [scoreLe] using h)
  · intro h
    subst h
    rfl


/-- Witness for `C7_ranked_metadata`: the empty candidate list is a valid,
non-error outcome yielding the empty result. -/
theorem C7_witness : rank_results ([] : List (Nat × ℚ)) = [] :=
  (C7_ranked_metadata ([] : List (Nat × ℚ))).2.2.2.2 rfl

/-! ## Claim C2 -/

set_option maxHeartbeats 4000000 in
/-- C2, counterexample: for the query `"free tech conference in San
Francisco"` no `category` filter is extracted — the vocabulary entry
`"technology"` is not a substring of the query (only `"tech"` occurs), so the
claimed filter set `{isFree, location, category}` is wrong about `category`. -/
theorem C2_counterexample :
    dictGet "category"
      (extract_filters_from_query envDemo "free tech conference in San Francisco".data).2
      = none := by
  decide

set_option maxHeartbeats 4000000 in
/-- C2, amended: for the query `"free tech conference in San Francisco"` (with
any date environment), extraction returns exactly the filters
`{isFree: true, location: "San Francisco"}` and the cleaned query
`"tech conference"`; no category filter is set, since `"technology"` does not
occur as a substring of the query. -/
theorem C2_amended (env : DateEnv) :
    extract_filters_from_query env "free tech conference in San Francisco".data
      = ("tech conference".data,
         [("isFree", FVal.b true), ("location", FVal.s "San Francisco".data)]) := by
  unfold extract_filters_from_query
  dsimp only
  rw [show stage_loc (stage_paid (stage_free
          ("free tech conference in San Francisco".data, ([] : Filters))))
        = (" tech conference ".data,
           [("isFree", FVal.b true), ("location", FVal.s "San Francisco".data)]) from by decide]
  rw [stage_dates_nomatch env _ (by decide) (by decide) (by decide) (by decide)]
  decide

/-! ## Claim C10 -/

set_option maxHeartbeats 4000000 in
/-- C10, confirmed: the location pattern `in\s+([A-Za-z\s]+)` is not anchored
at a word boundary: in `"Austin events"` it matches inside the word
`"Austin"`, so extraction sets `location = "Events"` (the title-cased text
after that embedded `"in"`) and removes the matched text `"in events"`,
leaving the cleaned query `"Aust"`. -/
theorem C10_location_not_anchored (env : DateEnv) :
    extract_filters_from_query env "Austin events".data
      = ("Aust".data, [("location", FVal.s "Events".data)]) := by
  unfold extract_filters_from_query
  dsimp only
  rw [show stage_loc (stage_paid (stage_free ("Austin events".data, ([] : Filters))))
        = ("Aust".data, [("location", FVal.s "Events".data)]) from by decide]
  rw [stage_dates_nomatch env _ (by decide) (by decide) (by decide) (by decide)]
  decide

/-! ## Claim C3, counterexample -/

set_option maxHeartbeats 4000000 in
/-- C3, counterexample: in `"freedom"` the word `"free"` occurs only as a
proper substring of a longer word — there is no standalone occurrence — yet
extraction still sets `isFree = true`, because the detection test is the plain
substring check `"free" in query.lower()`; only the stripping step is
word-boundary aware. -/
theorem C3_counterexample :
    hasWord freeW "freedom".data = false ∧
    dictGet "isFree" (extract_filters_from_query envDemo "freedom".data).2
      = some (FVal.b true) := by
  constructor
  · decide
  · decide

/-! ## Claim C4, counterexample -/

set_option maxHeartbeats 8000000 in
/-- C4, counterexample: the query `"free paid frmusicee"` contains both
standalone words, and extraction does set `isFree = false`; but the cleaned
query is `"free"` — the category stripping step (removing `"music"` from
`"frmusicee"`) re-creates the word `"free"`, so the claim that both words are
absent from the cleaned query is false. -/
theorem C4_counterexample :
    hasWord freeW "free paid frmusicee".data = true ∧
    hasWord paidW "free paid frmusicee".data = true ∧
    (extract_filters_from_query envDemo "free paid frmusicee".data).1 = "free".data ∧
    hasWord freeW (extract_filters_from_query envDemo "free paid frmusicee".data).1
      = true := by
  refine ⟨by decide, by decide, by decide, by decide⟩

/-! ## Claim C8 -/

theorem keysNodup_stage_free (x : List Char × Filters)
    (h : (x.2.map Prod.fst).Nodup) : ((stage_free x).2.map Prod.fst).Nodup := by
  unfold stage_free
  split
  · exact keysNodup_dictSet _ _ _ h
  · exact h

theorem keysNodup_stage_paid (x : List Char × Filters)
    (h : (x.2.map Prod.fst).Nodup) : ((stage_paid x).2.map Prod.fst).Nodup := by
  unfold stage_paid
  split
  · exact keysNodup_dictSet _ _ _ h
  · exact h

theorem keysNodup_stage_loc (x : List Char × Filters)
    (h : (x.2.map Prod.fst).Nodup) : ((stage_loc x).2.map Prod.fst).Nodup := by
  unfold stage_loc
  cases searchLoc x.1 with
  | none => exact h
  | some g => exact keysNodup_dictSet _ _ _ h

theorem keysNodup_dates_foldl (ps : List (List Char × List Char)) (x : List Char × Filters)
    (h : (x.2.map Prod.fst).Nodup) : (((ps.foldl dateStep x).2).map Prod.fst).Nodup := by
  induction ps generalizing x with
  | nil => exact h
  | cons pv ps ih =>
    rw [List.foldl_cons]
    apply ih
    unfold dateStep
    split
    · exact keysNodup_dictSet _ _ _ h
    · exact h

theorem keysNodup_cats_foldl (cs : List (List Char)) (x : List Char × Filters)
    (h : (x.2.map Prod.fst).Nodup) : (((cs.foldl catStep x).2).map Prod.fst).Nodup := by
  induction cs generalizing x with
  | nil => exact h
  | cons c cs ih =>
    rw [List.foldl_cons]
    apply ih
    unfold catStep
    split
    · exact keysNodup_dictSet _ _ _ h
    · exact h

/-- The category value produced by the category loop is determined by the
last vocabulary entry that matched during the loop (`catFired`), earlier
matches being silently overwritten; if no entry matched, the incoming value
is kept. -/
theorem dictGet_category_catFold (cs : List (List Char)) (x : List Char × Filters) :
    dictGet "category" (cs.foldl catStep x).2
      = ((catFired cs x.1).getLast?).elim (dictGet "category" x.2)
          (fun c => some (FVal.s (pyTitle c))) := by
  induction cs generalizing x with
  | nil => simp [catFired]
  | cons c cs ih =>
    rw [List.foldl_cons]
    by_cases h : containsCI c x.1 = true
    · have hstep : catStep x c = (subAll c x.1, dictSet "category" (FVal.s (pyTitle c)) x.2) := by
        unfold catStep
        rw [if_pos h]
      have hfired : catFired (c :: cs) x.1 = c :: catFired cs (subAll c x.1) := by
        simp [catFired, h]
      rw [hstep, ih, hfired]
      cases hl : catFired cs (subAll c x.1) with
      | nil => simp [dictGet_dictSet_same]
      | cons y l =>
        have hne : (y :: l) ≠ ([] : List (List Char)) := by simp
        obtain ⟨z, hz⟩ := Option.isSome_iff_exists.mp (List.getLast?_isSome.mpr hne)
        rw [List.getLast?_cons_cons, hz]
        simp
    · have hstep : catStep x c = x := by
        unfold catStep
        rw [if_neg h]
      have hfired : catFired (c :: cs) x.1 = catFired cs x.1 := by
        simp [catFired, h]
      rw [hstep, hfired, ih]

/-- Before the category loop runs, no `category` entry exists. -/
theorem dictGet_category_stages (env : DateEnv) (q : List Char) :
    dictGet "category" (stage_dates env (stage_loc (stage_paid (stage_free (q, []))))).2
      = none := by
  rw [dictGet_stage_dates_ne env _ (by decide), dictGet_stage_loc_ne _ (by decide),
    dictGet_stage_paid_ne _ (by decide), dictGet_stage_free_ne _ (by decide)]
  rfl

/-- C8, confirmed: the extracted filter set maps each key to at most one value
(its key list has no duplicates), and the `category` value is the title-cased
form of the *last* vocabulary entry that matched during the category loop, in
the fixed vocabulary iteration order — earlier matches are silently
overwritten, not combined (`none` when no entry matched). -/
theorem C8_last_category_wins (env : DateEnv) (q : List Char) :
    ((extract_filters_from_query env q).2.map Prod.fst).Nodup ∧
    dictGet "category" (extract_filters_from_query env q).2
      = ((catFired categories
            (stage_dates env (stage_loc (stage_paid (stage_free (q, []))))).1).getLast?).map
          (fun c => FVal.s (pyTitle c)) := by
  constructor
  · unfold extract_filters_from_query
    dsimp only
    unfold stage_cats
    apply keysNodup_cats_foldl
    apply keysNodup_dates_foldl
    apply keysNodup_stage_loc
    apply keysNodup_stage_paid
    apply keysNodup_stage_free
    simp
  · unfold extract_filters_from_query
    dsimp only
    unfold stage_cats
    rw [dictGet_category_catFold, dictGet_category_stages]
    cases (catFired categories
        (stage_dates env (stage_loc (stage_paid (stage_free (q, []))))).1).getLast? with
    | none => rfl
    | some z => rfl

/-! ## Token machinery for claims C3 and C4

The free/paid stripping `re.sub(r"\bfree\b", ...)` is characterised in terms
of `tokens`: it deletes exactly the maximal word-character runs that equal the
pattern up to case, and leaves every other token intact
(`tokens_subWordB_none` below). -/

theorem toNat_ofNatAux (n : Nat) (h : n.isValidChar) : (Char.ofNatAux n h).toNat = n := by
  simp [Char.ofNatAux, Char.toNat, UInt32.toNat]

theorem isWordChar_toLower (c : Char) : isWordChar c.toLower = isWordChar c := by
  show isWordChar (if c.toNat ≥ 65 ∧ c.toNat ≤ 90 then Char.ofNat (c.toNat + 32) else c)
      = isWordChar c
  split
  case isTrue h =>
    have hv : (c.toNat + 32).isValidChar := by
      left
      omega
    have ht : (Char.ofNat (c.toNat + 32)).toNat = c.toNat + 32 := by
      simp only [Char.ofNat, hv, dif_pos]
      exact toNat_ofNatAux _ hv
    have hlow : (Char.ofNat (c.toNat + 32)).isLower = true := by
      simp [Char.isLower]
      show 97 ≤ (Char.ofNat (c.toNat + 32)).toNat ∧ (Char.ofNat (c.toNat + 32)).toNat ≤ 122
      omega
    have hup : c.isUpper = true := by
      simp [Char.isUpper]
      show 65 ≤ c.toNat ∧ c.toNat ≤ 90
      omega
    simp [isWordChar, Char.isAlphanum, Char.isAlpha, hlow, hup]
  case isFalse h => rfl

theorem isWordChar_of_toLower_eq {a b : Char} (h : a.toLower = b.toLower) :
    isWordChar a = isWordChar b := by
  rw [← isWordChar_toLower a, ← isWordChar_toLower b, h]

theorem prefCI_iff (w s : List Char) :
    prefCI w s = true ↔ w.length ≤ s.length ∧ lower (s.take w.length) = lower w := by
  induction w generalizing s with
  | nil => simp [prefCI, lower]
  | cons a as ih =>
    cases s with
    | nil => simp [prefCI, lower]
    | cons b bs =>
      simp only [prefCI, Bool.and_eq_true, beq_iff_eq, ih, List.length_cons, List.take,
        lower, List.map_cons, List.cons.injEq, List.map_take]
      constructor
      · rintro ⟨h1, h2, h3⟩
        exact ⟨by omega, h1.symm, by simpa [lower, List.map_take] using h3⟩
      · rintro ⟨h1, h2, h3⟩
        exact ⟨h2.symm, by omega, by simpa [lower, List.map_take] using h3⟩

theorem containsCI_iff (w s : List Char) :
    containsCI w s = true ↔ ∃ u v, lower s = u ++ lower w ++ v := by
  induction s with
  | nil =>
    cases w with
    | nil => simp [containsCI, prefCI, lower]
    | cons a as =>
      simp only [containsCI, prefCI, lower, List.map_nil, List.map_cons]
      constructor
      · intro h
        exact absurd h (by simp)
      · rintro ⟨u, v, h⟩
        exact absurd h.symm (by simp)
  | cons c rest ih =>
    simp only [containsCI, Bool.or_eq_true, ih]
    constructor
    · rintro (h | ⟨u, v, h⟩)
      · obtain ⟨h1, h2⟩ := (prefCI_iff w (c :: rest)).mp h
        refine ⟨[], lower ((c :: rest).drop w.length), ?_⟩
        rw [List.nil_append, ← h2]
        simp only [lower, ← List.map_append]
        rw [List.take_append_drop]
      · refine ⟨c.toLower :: u, v, ?_⟩
        simp only [lower, List.map_cons] at h ⊢
        simp [h]
    · rintro ⟨u, v, h⟩
      cases u with
      | nil =>
        left
        apply (prefCI_iff w (c :: rest)).mpr
        have hlen : w.length ≤ (c :: rest).length := by
          have := congrArg List.length h
          simp only [lower, List.length_map, List.length_cons, List.length_append,
            List.nil_append] at this
          simp only [List.length_cons]
          omega
        refine ⟨hlen, ?_⟩
        have : lower ((c :: rest).take w.length) = (lower (c :: rest)).take w.length := by
          simp [lower, List.map_take]
        rw [this, h, List.nil_append]
        simp [List.take_append, lower]
      | cons u0 us =>
        right
        simp only [lower, List.map_cons, List.cons_append, List.cons.injEq] at h
        exact ⟨us, v, by simp [lower, h.2]⟩

theorem dropWhile_head_false {p : Char → Bool} {l : List Char} {d : Char} {t : List Char}
    (h : l.dropWhile p = d :: t) : p d = false := by
  induction l with
  | nil => simp [List.dropWhile] at h
  | cons c rest ih =>
    rw [List.dropWhile_cons] at h
    by_cases hc : p c = true
    · rw [if_pos hc] at h
      exact ih h
    · rw [if_neg hc] at h
      cases h
      simpa using hc

theorem takeWhile_all_append {p : Char → Bool} {t : List Char} (s : List Char)
    (h : ∀ c ∈ t, p c = true) : (t ++ s).takeWhile p = t ++ s.takeWhile p := by
  induction t with
  | nil => simp
  | cons c rest ih =>
    simp only [List.cons_append, List.takeWhile_cons]
    rw [if_pos (h c (by simp)), ih (fun c hc => h c (by simp [hc]))]

theorem dropWhile_all_append {p : Char → Bool} {t : List Char} (s : List Char)
    (h : ∀ c ∈ t, p c = true) : (t ++ s).dropWhile p = s.dropWhile p := by
  induction t with
  | nil => simp
  | cons c rest ih =>
    simp only [List.cons_append, List.dropWhile_cons]
    rw [if_pos (h c (by simp))]
    exact ih (fun c hc => h c (by simp [hc]))

theorem takeWhile_eq_take {p : Char → Bool} :
    ∀ (k : Nat) (l : List Char), (∀ x ∈ l.take k, p x = true) →
      (∀ d t, l.drop k = d :: t → p d = false) → l.takeWhile p = l.take k
  | 0, l, _, h2 => by
    cases hl : l with
    | nil => simp
    | cons d t =>
      rw [List.take_zero, List.takeWhile_cons, if_neg]
      simp [h2 d t (by simp [hl])]
  | k + 1, [], _, _ => by simp
  | k + 1, x :: xs, h1, h2 => by
    rw [List.take_succ_cons, List.takeWhile_cons, if_pos (h1 x (by simp))]
    rw [takeWhile_eq_take k xs (fun y hy => h1 y (by simp [hy])) (fun d t hd => h2 d t hd)]

theorem wordChar_of_lower_eq : ∀ (u v : List Char), lower u = lower v →
    (∀ x ∈ v, isWordChar x = true) → ∀ x ∈ u, isWordChar x = true := by
  intro u
  induction u with
  | nil => simp
  | cons a as ih =>
    intro v hl hv x hx
    cases v with
    | nil => simp [lower] at hl
    | cons b bs =>
      simp only [lower, List.map_cons, List.cons.injEq] at hl
      rcases List.mem_cons.mp hx with rfl | hx
      · rw [isWordChar_of_toLower_eq hl.1]
        exact hv b (by simp)
      · exact ih bs hl.2 (fun y hy => hv y (by simp [hy])) x hx

theorem take_len_append (l1 l2 : List Char) : (l1 ++ l2).take l1.length = l1 := by
  induction l1 with
  | nil => simp
  | cons c t ih => simp [ih]

theorem drop_len_append (l1 l2 : List Char) : (l1 ++ l2).drop l1.length = l2 := by
  induction l1 with
  | nil => simp
  | cons c t ih => simp [ih]

theorem tokens_cons_word {c : Char} (rest : List Char) (hc : isWordChar c = true) :
    tokens (c :: rest)
      = (c :: rest.takeWhile isWordChar) :: tokens (rest.dropWhile isWordChar) := by
  simp only [tokens]
  rw [if_pos hc]

theorem tokens_cons_notword {c : Char} (rest : List Char) (hc : isWordChar c = false) :
    tokens (c :: rest) = tokens rest := by
  simp only [tokens]
  rw [if_neg (by simp [hc])]

theorem subWordB_cons_match {w : List Char} {prev : Option Char} {c : Char} {rest : List Char}
    (h : 0 < w.length ∧ prefCI w (c :: rest) = true ∧ leftB prev = true
         ∧ rightB ((c :: rest).drop w.length) = true) :
    subWordB w prev (c :: rest)
      = subWordB w ((c :: rest).take w.length).getLast? ((c :: rest).drop w.length) := by
  simp only [subWordB]
  rw [dif_pos h]

theorem subWordB_cons_keep {w : List Char} {prev : Option Char} {c : Char} {rest : List Char}
    (h : ¬(0 < w.length ∧ prefCI w (c :: rest) = true ∧ leftB prev = true
         ∧ rightB ((c :: rest).drop w.length) = true)) :
    subWordB w prev (c :: rest) = c :: subWordB w (some c) rest := by
  simp only [subWordB]
  rw [dif_neg h]

/-- While the previous character is a word character, no `\b` can hold, so the
scanner copies the current maximal word run verbatim and resumes at the next
non-word character. -/
theorem subWordB_inword (w : List Char) :
    ∀ (s : List Char) (c : Char), isWordChar c = true →
      subWordB w (some c) s
        = s.takeWhile isWordChar ++
          (match s.dropWhile isWordChar with
           | [] => []
           | d :: s2 => d :: subWordB w (some d) s2) := by
  intro s
  induction s with
  | nil =>
    intro c hc
    simp [subWordB]
  | cons e rest ih =>
    intro c hc
    have hkeep : subWordB w (some c) (e :: rest) = e :: subWordB w (some e) rest := by
      apply subWordB_cons_keep
      rintro ⟨_, _, hl, _⟩
      simp [leftB, hc] at hl
    rw [hkeep]
    by_cases he : isWordChar e = true
    · rw [List.takeWhile_cons, if_pos he, List.dropWhile_cons, if_pos he, ih e he]
      simp
    · have he' : isWordChar e = false := by simpa using he
      rw [List.takeWhile_cons, if_neg (by simp [he']), List.dropWhile_cons,
        if_neg (by simp [he'])]
      simp

/-- Tokenisation of a maximal word run followed by a boundary. -/
theorem tokens_word_append (tok : List Char) (h0 : tok ≠ [])
    (h1 : ∀ c ∈ tok, isWordChar c = true) (s : List Char) (h2 : rightB s = true) :
    tokens (tok ++ s) = tok :: tokens s := by
  cases tok with
  | nil => exact absurd rfl h0
  | cons c t =>
    rw [List.cons_append, tokens_cons_word _ (h1 c (by simp))]
    have htw : (t ++ s).takeWhile isWordChar = t ++ s.takeWhile isWordChar :=
      takeWhile_all_append s (fun x hx => h1 x (by simp [hx]))
    have hdw : (t ++ s).dropWhile isWordChar = s.dropWhile isWordChar :=
      dropWhile_all_append s (fun x hx => h1 x (by simp [hx]))
    have hs_take : s.takeWhile isWordChar = [] := by
      cases s with
      | nil => rfl
      | cons d s2 =>
        simp only [rightB, Bool.not_eq_true'] at h2
        rw [List.takeWhile_cons, if_neg (by simp [h2])]
    have hs_drop : s.dropWhile isWordChar = s := by
      cases s with
      | nil => rfl
      | cons d s2 =>
        simp only [rightB, Bool.not_eq_true'] at h2
        rw [List.dropWhile_cons, if_neg (by simp [h2])]
    rw [htw, hdw, hs_take, hs_drop, List.append_nil]

theorem tokens_allword (tok : List Char) (h0 : tok ≠ [])
    (h1 : ∀ c ∈ tok, isWordChar c = true) : tokens tok = [tok] := by
  have := tokens_word_append tok h0 h1 [] rfl
  simpa using this

/-- At a position opening a word run, the `\bw\b` pattern matches exactly when
the whole maximal run equals `w` up to case. -/
theorem match_head_iff_token (w : List Char) (hw0 : w ≠ [])
    (hw : ∀ x ∈ w, isWordChar x = true) (c : Char) (rest : List Char)
    (hc : isWordChar c = true) :
    (prefCI w (c :: rest) = true ∧ rightB ((c :: rest).drop w.length) = true)
      ↔ lowerEq (c :: rest.takeWhile isWordChar) w = true := by
  have htok : (c :: rest).takeWhile isWordChar = c :: rest.takeWhile isWordChar := by
    rw [List.takeWhile_cons, if_pos hc]
  constructor
  · rintro ⟨hp, hr⟩
    obtain ⟨hlen, htake⟩ := (prefCI_iff w (c :: rest)).mp hp
    have hwords : ∀ x ∈ (c :: rest).take w.length, isWordChar x = true :=
      wordChar_of_lower_eq _ w htake hw
    have heq : (c :: rest).takeWhile isWordChar = (c :: rest).take w.length := by
      apply takeWhile_eq_take w.length (c :: rest) hwords
      intro d t hd
      rw [hd] at hr
      simpa [rightB] using hr
    rw [← htok, heq]
    simp only [lowerEq, beq_iff_eq]
    exact htake
  · intro hl
    rw [← htok] at hl
    simp only [lowerEq, beq_iff_eq] at hl
    have hlen : ((c :: rest).takeWhile isWordChar).length = w.length := by
      have := congrArg List.length hl
      simpa [lower] using this
    have hdecomp : (c :: rest).takeWhile isWordChar ++ (c :: rest).dropWhile isWordChar
        = c :: rest := List.takeWhile_append_dropWhile isWordChar (c :: rest)
    have htake2 : (c :: rest).take w.length = (c :: rest).takeWhile isWordChar := by
      conv_lhs => rw [← hdecomp]
      rw [← hlen, take_len_append]
    have hdrop2 : (c :: rest).drop w.length = (c :: rest).dropWhile isWordChar := by
      conv_lhs => rw [← hdecomp]
      rw [← hlen, drop_len_append]
    constructor
    · apply (prefCI_iff w (c :: rest)).mpr
      refine ⟨?_, ?_⟩
      · have := congrArg List.length hdecomp
        simp only [List.length_append, List.length_cons] at this
        simp only [List.length_cons]
        omega
      · rw [htake2, hl]
    · rw [hdrop2]
      cases hdw : (c :: rest).dropWhile isWordChar with
      | nil => rfl
      | cons d t => simp [rightB, dropWhile_head_false hdw]

theorem tokens_nil : tokens [] = [] := by
  simp [tokens]

theorem subWordB_nil (w : List Char) (prev : Option Char) : subWordB w prev [] = [] := by
  simp [subWordB]

theorem mem_takeWhile_p {p : Char → Bool} : ∀ {l : List Char} {x : Char},
    x ∈ l.takeWhile p → p x = true := by
  intro l
  induction l with
  | nil => simp
  | cons c t ih =>
    intro x hx
    rw [List.takeWhile_cons] at hx
    by_cases hc : p c = true
    · rw [if_pos hc] at hx
      rcases List.mem_cons.mp hx with rfl | hx
      · exact hc
      · exact ih hx
    · rw [if_neg hc] at hx
      simp at hx

theorem prefCI_notword_head (w : List Char) (hw0 : w ≠ [])
    (hw : ∀ x ∈ w, isWordChar x = true) (d : Char) (hd : isWordChar d = false)
    (t : List Char) : prefCI w (d :: t) = false := by
  cases w with
  | nil => exact absurd rfl hw0
  | cons w0 w' =>
    by_contra hcon
    have hp : prefCI (w0 :: w') (d :: t) = true := by simpa using hcon
    simp only [prefCI, Bool.and_eq_true, beq_iff_eq] at hp
    have := isWordChar_of_toLower_eq hp.1
    rw [hw w0 (by simp), hd] at this
    exact Bool.true_eq_false.mp this

theorem subWordB_inword_nil (w : List Char) (s : List Char) (c : Char)
    (hc : isWordChar c = true) (hdw : s.dropWhile isWordChar = []) :
    subWordB w (some c) s = s.takeWhile isWordChar := by
  rw [subWordB_inword w s c hc, hdw]
  simp

theorem subWordB_inword_cons (w : List Char) (s : List Char) (c : Char)
    (hc : isWordChar c = true) (d : Char) (s2 : List Char)
    (hdw : s.dropWhile isWordChar = d :: s2) :
    subWordB w (some c) s = s.takeWhile isWordChar ++ d :: subWordB w (some d) s2 := by
  rw [subWordB_inword w s c hc, hdw]

/-- Main characterisation: `re.sub(r"\bw\b", "", s, re.IGNORECASE)` (for a
nonempty all-word-character `w`, scanning from a boundary state) deletes
exactly the maximal word runs equal to `w` up to case and keeps every other
token unchanged. -/
theorem tokens_subWordB_aux (w : List Char) (hw0 : w ≠ [])
    (hw : ∀ x ∈ w, isWordChar x = true) :
    ∀ (n : Nat) (s : List Char), s.length ≤ n → ∀ (prev : Option Char), leftB prev = true →
      tokens (subWordB w prev s) = (tokens s).filter (fun t => !lowerEq t w) := by
  intro n
  induction n with
  | zero =>
    intro s hs prev _
    have hnil : s = [] := List.length_eq_zero.mp (Nat.le_zero.mp hs)
    subst hnil
    rw [subWordB_nil, tokens_nil]
    rfl
  | succ n ih =>
    intro s hs prev hprev
    cases s with
    | nil =>
      rw [subWordB_nil, tokens_nil]
      rfl
    | cons c rest =>
      simp only [List.length_cons] at hs
      by_cases hc : isWordChar c = true
      case neg =>
        have hc' : isWordChar c = false := by simpa using hc
        have hkeep : subWordB w prev (c :: rest) = c :: subWordB w (some c) rest := by
          apply subWordB_cons_keep
          rintro ⟨_, hp, _, _⟩
          rw [prefCI_notword_head w hw0 hw c hc' rest] at hp
          exact Bool.false_ne_true hp
        rw [hkeep, tokens_cons_notword _ hc',
          ih rest (by omega) (some c) (by simp [leftB, hc']),
          tokens_cons_notword rest hc']
      case pos =>
        have htokw : (c :: rest).takeWhile isWordChar = c :: rest.takeWhile isWordChar := by
          rw [List.takeWhile_cons, if_pos hc]
        have hdroprest : (c :: rest).dropWhile isWordChar = rest.dropWhile isWordChar := by
          rw [List.dropWhile_cons, if_pos hc]
        have hdecomp : (c :: rest).takeWhile isWordChar ++ (c :: rest).dropWhile isWordChar
            = c :: rest := List.takeWhile_append_dropWhile isWordChar (c :: rest)
        have htokall : ∀ x ∈ c :: rest.takeWhile isWordChar, isWordChar x = true := by
          intro x hx
          rcases List.mem_cons.mp hx with rfl | hx
          · exact hc
          · exact mem_takeWhile_p hx
        by_cases hm : lowerEq (c :: rest.takeWhile isWordChar) w = true
        · obtain ⟨hp, hr⟩ := (match_head_iff_token w hw0 hw c rest hc).mpr hm
          have hw_len : 0 < w.length := by
            cases w with
            | nil => exact absurd rfl hw0
            | cons a b => simp
          have hmatch := @subWordB_cons_match w prev c rest ⟨hw_len, hp, hprev, hr⟩
          have hlen2 : ((c :: rest).takeWhile isWordChar).length = w.length := by
            rw [htokw]
            have : lower (c :: rest.takeWhile isWordChar) = lower w := by
              simpa [lowerEq, beq_iff_eq] using hm
            have := congrArg List.length this
            simpa [lower] using this
          have hdrop2 : (c :: rest).drop w.length = rest.dropWhile isWordChar := by
            conv_lhs => rw [← hdecomp]
            rw [← hlen2, drop_len_append, hdroprest]
          rw [hmatch, hdrop2]
          have hm' : lowerEq (c :: rest.takeWhile isWordChar) w = true := hm
          cases hdw : rest.dropWhile isWordChar with
          | nil =>
            rw [subWordB_nil, tokens_nil, tokens_cons_word rest hc, hdw, tokens_nil]
            simp [List.filter_cons, hm']
          | cons d s2 =>
            have hd : isWordChar d = false := dropWhile_head_false hdw
            have hkeep2 : ∀ pv : Option Char, subWordB w pv (d :: s2)
                = d :: subWordB w (some d) s2 := by
              intro pv
              apply subWordB_cons_keep
              rintro ⟨_, hp2, _, _⟩
              rw [prefCI_notword_head w hw0 hw d hd s2] at hp2
              exact Bool.false_ne_true hp2
            rw [hkeep2, tokens_cons_notword _ hd]
            have hlens2 : s2.length ≤ n := by
              have e := congrArg List.length hdecomp
              rw [hdroprest, hdw] at e
              simp only [List.length_append, List.length_cons] at e
              omega
            rw [ih s2 hlens2 (some d) (by simp [leftB, hd])]
            rw [tokens_cons_word rest hc, hdw, tokens_cons_notword _ hd]
            simp [List.filter_cons, hm']
        · have hm' : lowerEq (c :: rest.takeWhile isWordChar) w = false := by simpa using hm
          have hnc : ¬(0 < w.length ∧ prefCI w (c :: rest) = true ∧ leftB prev = true
              ∧ rightB ((c :: rest).drop w.length) = true) := by
            rintro ⟨_, hp, _, hr⟩
            exact hm ((match_head_iff_token w hw0 hw c rest hc).mp ⟨hp, hr⟩)
          rw [subWordB_cons_keep hnc]
          cases hdw : rest.dropWhile isWordChar with
          | nil =>
            rw [subWordB_inword_nil w rest c hc hdw]
            rw [show (c :: rest.takeWhile isWordChar : List Char)
                  = (c :: rest.takeWhile isWordChar) ++ [] from by simp]
            rw [tokens_word_append _ (by simp) htokall [] rfl, tokens_nil,
              tokens_cons_word rest hc, hdw, tokens_nil]
            simp [List.filter_cons, hm']
          | cons d s2 =>
            have hd : isWordChar d = false := dropWhile_head_false hdw
            rw [subWordB_inword_cons w rest c hc d s2 hdw]
            rw [show c :: (rest.takeWhile isWordChar ++ d :: subWordB w (some d) s2)
                  = (c :: rest.takeWhile isWordChar) ++ (d :: subWordB w (some d) s2)
                from rfl]
            rw [tokens_word_append _ (by simp) htokall _ (by simp [rightB, hd])]
            rw [tokens_cons_notword _ hd]
            have hlens2 : s2.length ≤ n := by
              have e := congrArg List.length
                (List.takeWhile_append_dropWhile isWordChar rest)
              rw [hdw] at e
              simp only [List.length_append, List.length_cons] at e
              omega
            rw [ih s2 hlens2 (some d) (by simp [leftB, hd])]
            rw [tokens_cons_word rest hc, hdw, tokens_cons_notword _ hd]
            simp [List.filter_cons, hm']

/-- Specialisation of `tokens_subWordB_aux` to the initial boundary state. -/
theorem tokens_subWordB (w : List Char) (hw0 : w ≠ [])
    (hw : ∀ x ∈ w, isWordChar x = true) (s : List Char) :
    tokens (subWordB w none s) = (tokens s).filter (fun t => !lowerEq t w) :=
  tokens_subWordB_aux w hw0 hw s.length s le_rfl none rfl

/-- Every token of `s` occurs in `s` as a contiguous segment. -/
theorem tokens_seg : ∀ (n : Nat) (s : List Char), s.length ≤ n →
    ∀ t ∈ tokens s, ∃ u v, s = u ++ t ++ v := by
  intro n
  induction n with
  | zero =>
    intro s hs t ht
    have hnil : s = [] := List.length_eq_zero.mp (Nat.le_zero.mp hs)
    subst hnil
    rw [tokens_nil] at ht
    simp at ht
  | succ n ih =>
    intro s hs t ht
    cases s with
    | nil =>
      rw [tokens_nil] at ht
      simp at ht
    | cons c rest =>
      simp only [List.length_cons] at hs
      by_cases hc : isWordChar c = true
      · rw [tokens_cons_word rest hc] at ht
        rcases List.mem_cons.mp ht with rfl | ht
        · refine ⟨[], rest.dropWhile isWordChar, ?_⟩
          simp only [List.nil_append]
          rw [List.cons_append, List.takeWhile_append_dropWhile]
        · have hlen : (rest.dropWhile isWordChar).length ≤ n := by
            have := (@List.dropWhile_sublist Char rest isWordChar).length_le
            omega
          obtain ⟨u, v, huv⟩ := ih (rest.dropWhile isWordChar) hlen t ht
          refine ⟨(c :: rest.takeWhile isWordChar) ++ u, v, ?_⟩
          conv_lhs => rw [show (c :: rest : List Char)
              = (c :: rest.takeWhile isWordChar) ++ rest.dropWhile isWordChar from by
            rw [List.cons_append, List.takeWhile_append_dropWhile]]
          rw [huv]
          simp [List.append_assoc]
      · have hc' : isWordChar c = false := by simpa using hc
        rw [tokens_cons_notword rest hc'] at ht
        obtain ⟨u, v, huv⟩ := ih rest (by omega) t ht
        exact ⟨c :: u, v, by simp [huv]⟩

/-- A token that equals `w` up to case makes `w` a substring. -/
theorem containsCI_of_token (w s t : List Char) (htm : t ∈ tokens s)
    (ht : lowerEq t w = true) : containsCI w s = true := by
  obtain ⟨u, v, huv⟩ := tokens_seg s.length s le_rfl t htm
  apply (containsCI_iff w s).mpr
  refine ⟨lower u, lower v, ?_⟩
  subst huv
  simp only [lowerEq, beq_iff_eq] at ht
  have hsplit : lower (u ++ t ++ v) = lower u ++ lower t ++ lower v := by
    simp [lower]
  rw [hsplit, ht]

theorem hasWord_iff (w s : List Char) :
    hasWord w s = true ↔ ∃ t ∈ tokens s, lowerEq t w = true := by
  simp [hasWord, List.any_eq_true]

theorem containsCI_of_hasWord {w s : List Char} (h : hasWord w s = true) :
    containsCI w s = true := by
  obtain ⟨t, htm, ht⟩ := (hasWord_iff w s).mp h
  exact containsCI_of_token w s t htm ht

theorem lowerEq_free_of_paid {t : List Char} (h : lowerEq t paidW = true) :
    lowerEq t freeW = false := by
  simp only [lowerEq, beq_iff_eq] at h ⊢
  rw [h]
  decide

/-! ## Claim C3, amended -/

/-- C3, amended: the free/paid detection is substring-based, not
word-boundary based — `isFree` is set iff `"free"` occurs case-insensitively
as a substring of the query or `"paid"` occurs as a substring of the query
left by the free-stripping step (word boundaries are consulted only by the
stripping, never by the detection); thus a query such as `"freedom"`, where
`"free"` occurs only inside a longer word, still sets `isFree = true`. -/
theorem C3_amended (env : DateEnv) (q : List Char) :
    dictGet "isFree" (extract_filters_from_query env q).2
      = (if containsCI paidW (stage_free (q, [])).1 then some (FVal.b false)
         else if containsCI freeW q then some (FVal.b true)
         else none) := by
  rw [dictGet_isFree_extract]
  by_cases hf : containsCI freeW q = true
  · have h1 : stage_free (q, ([] : Filters))
        = (subWordB freeW none q, [("isFree", FVal.b true)]) := by
      simp [stage_free, hf, dictSet]
    rw [h1]
    by_cases hp : containsCI paidW (subWordB freeW none q) = true
    · have h2 : stage_paid (subWordB freeW none q, [("isFree", FVal.b true)])
          = (subWordB paidW none (subWordB freeW none q), [("isFree", FVal.b false)]) := by
        simp [stage_paid, hp, dictSet]
      rw [h2]
      simp [dictGet, hp]
    · have h2 : stage_paid (subWordB freeW none q, [("isFree", FVal.b true)])
          = (subWordB freeW none q, [("isFree", FVal.b true)]) := by
        simp [stage_paid, hp]
      rw [h2]
      simp [dictGet, hp, hf]
  · have h1 : stage_free (q, ([] : Filters)) = (q, ([] : Filters)) := by
      simp [stage_free, hf]
    rw [h1]
    by_cases hp : containsCI paidW q = true
    · have h2 : stage_paid (q, ([] : Filters))
          = (subWordB paidW none q, [("isFree", FVal.b false)]) := by
        simp [stage_paid, hp, dictSet]
      rw [h2]
      simp [dictGet, hp]
    · have h2 : stage_paid (q, ([] : Filters)) = (q, ([] : Filters)) := by
        simp [stage_paid, hp]
      rw [h2]
      simp [dictGet, hp, hf]

/-! ## Claim C4, amended -/

/-- C4, amended: for every query containing both `"free"` and `"paid"` as
standalone words, extraction sets `isFree = false` (the paid assignment runs
second and overwrites the free one), and after the free/paid steps both words
are absent from the working query — every standalone occurrence has been
stripped; a later stripping step (date/location/category removal) may however
re-create one of the words in the final cleaned query, as
`C4_counterexample` shows. -/
theorem C4_amended (env : DateEnv) (q : List Char)
    (hfw : hasWord freeW q = true) (hpw : hasWord paidW q = true) :
    dictGet "isFree" (extract_filters_from_query env q).2 = some (FVal.b false) ∧
    hasWord freeW (stage_paid (stage_free (q, []))).1 = false ∧
    hasWord paidW (stage_paid (stage_free (q, []))).1 = false := by
  have hwfree0 : freeW ≠ [] := by decide
  have hwfreeW : ∀ x ∈ freeW, isWordChar x = true := by decide
  have hwpaid0 : paidW ≠ [] := by decide
  have hwpaidW : ∀ x ∈ paidW, isWordChar x = true := by decide
  have hf : containsCI freeW q = true := containsCI_of_hasWord hfw
  have h1 : stage_free (q, ([] : Filters))
      = (subWordB freeW none q, [("isFree", FVal.b true)]) := by
    simp [stage_free, hf, dictSet]
  have htoks1 : tokens (subWordB freeW none q)
      = (tokens q).filter (fun t => !lowerEq t freeW) :=
    tokens_subWordB freeW hwfree0 hwfreeW q
  obtain ⟨t, htm, ht⟩ := (hasWord_iff paidW q).mp hpw
  have htm1 : t ∈ tokens (subWordB freeW none q) := by
    rw [htoks1]
    refine List.mem_filter.mpr ⟨htm, ?_⟩
    simp [lowerEq_free_of_paid ht]
  have hp : containsCI paidW (subWordB freeW none q) = true :=
    containsCI_of_token _ _ t htm1 ht
  have h2 : stage_paid (subWordB freeW none q, [("isFree", FVal.b true)])
      = (subWordB paidW none (subWordB freeW none q), [("isFree", FVal.b false)]) := by
    simp [stage_paid, hp, dictSet]
  have htoks2 : tokens (subWordB paidW none (subWordB freeW none q))
      = (tokens (subWordB freeW none q)).filter (fun t => !lowerEq t paidW) :=
    tokens_subWordB paidW hwpaid0 hwpaidW _
  refine ⟨?_, ?_, ?_⟩
  · rw [dictGet_isFree_extract, h1, h2]
    simp [dictGet]
  · rw [h1, h2]
    show hasWord freeW (subWordB paidW none (subWordB freeW none q)) = false
    by_contra hcon
    have hcon' : hasWord freeW (subWordB paidW none (subWordB freeW none q)) = true := by
      simpa using hcon
    obtain ⟨t', ht'm, ht'⟩ := (hasWord_iff _ _).mp hcon'
    rw [htoks2, htoks1] at ht'm
    have := (List.mem_filter.mp (List.mem_filter.mp ht'm).1).2
    simp [ht'] at this
  · rw [h1, h2]
    show hasWord paidW (subWordB paidW none (subWordB freeW none q)) = false
    by_contra hcon
    have hcon' : hasWord paidW (subWordB paidW none (subWordB freeW none q)) = true := by
      simpa using hcon
    obtain ⟨t', ht'm, ht'⟩ := (hasWord_iff _ _).mp hcon'
    rw [htoks2] at ht'm
    have := (List.mem_filter.mp ht'm).2
    simp [ht'] at this

set_option maxHeartbeats 1000000 in
/-- Witness for `C4_amended` at the concrete query `"free paid"`. -/
theorem C4_amended_witness :
    (hasWord freeW "free paid".data = true ∧ hasWord paidW "free paid".data = true) ∧
    (dictGet "isFree" (extract_filters_from_query envDemo "free paid".data).2
        = some (FVal.b false) ∧
     hasWord freeW (stage_paid (stage_free ("free paid".data, []))).1 = false ∧
     hasWord paidW (stage_paid (stage_free ("free paid".data, []))).1 = false) :=
  ⟨⟨by decide, by decide⟩,
   C4_amended envDemo "free paid".data (by decide) (by decide)⟩

end EventHub
